import Mathlib

/-!
Shallow embedding of the pluto repository's persistence core: the domain
`User` entity (src/domain/entities/user.py), the relational row model
(src/infrastructure/database/models/user_model.py) and the repository
implementation
(src/infrastructure/database/repositories/sqlalchemy_user_repository.py).

The relational store is modelled as a list of committed rows plus the
autoincrement counter.  Each repository operation is a function from the
committed database to a result paired with the resulting committed
database; a raised Python exception is an `Except.error` value, and
`session.rollback()` leaves the committed database unchanged, so error
paths that roll back return the original database.
-/

namespace Pluto

/-- Modelled from the spec: the module `src.domain.enums.user_enums`
(imported throughout the source but absent from the repository snapshot)
defines the Status Enumeration.  Spec section 3: closed set
of values named active, inactive, pending, banned. -/
inductive UserStatus
  | active
  | inactive
  | pending
  | banned
deriving DecidableEq, Repr

/-- The primitive string value of a Status Enumeration member, as stored in
the status column (spec section 6: status is one of the enumeration's
primitive values). -/
def UserStatus.value : UserStatus → String
  | .active => "active"
  | .inactive => "inactive"
  | .pending => "pending"
  | .banned => "banned"

/-- Python `UserStatus(s)` on a string: the member whose value is `s`, or a
ValueError (here `none`) when `s` names no member. -/
def UserStatus.ofValue (s : String) : Option UserStatus :=
  if s = "active" then some .active
  else if s = "inactive" then some .inactive
  else if s = "pending" then some .pending
  else if s = "banned" then some .banned
  else none

/-- A status argument as Python duck typing admits it: either a
`UserStatus` member or a raw string (the `UserStatus | str` union in the
repository's signatures). -/
inductive StatusArg
  | enum (s : UserStatus)
  | str (v : String)
deriving DecidableEq, Repr

/-- Embeds the domain entity `User` (src/domain/entities/user.py):
`user_id` is absent until persisted; `user_status` is the duck-typed
status field. -/
structure User where
  user_id : Option Nat
  user_name : String
  user_email : String
  user_status : StatusArg
deriving DecidableEq, Repr

/-- The error kinds the repository layer can raise.
`alreadyExists` embeds `UserAlreadyExistsError` (its class lives in the
missing module `src.domain.exceptions.user_exceptions`; it is a plain
exception carrier).  `notFound` is the ValueError raised by `update` when
no row matches the identifier; `missingId` the ValueError raised by
`update` on an absent identifier; `validationError` the ValueError raised
by Python enum construction on an invalid status string;
`integrityError` an uncaught storage IntegrityError propagating unchanged;
`multipleResults` the MultipleResultsFound error of
`scalar_one_or_none`; `attributeError` the AttributeError raised by
`UserModel.from_domain`, whose first line reads `user.user_status.value`
unconditionally, which crashes for every plain-string status before the
isinstance dispatch. -/
inductive Err
  | alreadyExists
  | notFound
  | missingId
  | validationError
  | integrityError
  | multipleResults
  | attributeError
deriving DecidableEq, Repr

/-- A committed row of the `users` table
(src/infrastructure/database/models/user_model.py): integer primary key,
unique username, unique email, status stored as a string. -/
structure Row where
  id : Nat
  username : String
  email : String
  status : String
deriving DecidableEq, Repr

/-- The committed state of the relational store: the rows of the `users`
table and the autoincrement counter that yields the next generated
primary key. -/
structure DB where
  rows : List Row
  nextId : Nat
deriving DecidableEq, Repr

/-- A `UserModel` instance before it is flushed: the primary key is still
optional (absent means the storage assigns it at insert time). -/
structure PendingModel where
  id? : Option Nat
  username : String
  email : String
  status : String
deriving DecidableEq, Repr

/-- Embeds `SqlAlchemyUserRepository._ensure_status`: an enum member passes
through; a string is normalized with `UserStatus(status)`, which raises a
ValueError on an invalid value. -/
def ensureStatus : StatusArg → Except Err UserStatus
  | .enum s => .ok s
  | .str v =>
      match UserStatus.ofValue v with
      | some s => .ok s
      | none => .error .validationError

/-- Whether a status argument normalizes without error. -/
def StatusArg.valid : StatusArg → Bool
  | .enum _ => true
  | .str v => (UserStatus.ofValue v).isSome

/-- Embeds `UserModel.from_domain`.  Its first statement,
`status_value = user.user_status.value`, runs before the isinstance
dispatch, so a plain-string status (valid or not) raises AttributeError
there and the `UserStatus(...)` fallback branch is unreachable; only an
enumeration-typed status converts, to its primitive string value.  The
caller-supplied identifier is carried only when it is set. -/
def fromDomain (u : User) : Except Err PendingModel :=
  match u.user_status with
  | .enum s => .ok ⟨u.user_id, u.user_name, u.user_email, s.value⟩
  | .str _ => .error .attributeError

/-- Embeds `UserModel.to_domain`: parses the stored status string back
through the enumeration (ValueError when the stored string names no
member). -/
def toDomain (r : Row) : Except Err User :=
  match UserStatus.ofValue r.status with
  | some s => .ok ⟨some r.id, r.username, r.email, .enum s⟩
  | none => .error .validationError

/-- Primary-key lookup, embedding `session.get(UserModel, user_id)`. -/
def DB.getById (db : DB) (i : Nat) : Option Row :=
  db.rows.find? (fun r => r.id == i)

/-- The storage engine committing one INSERT: the primary key is the
caller-supplied one or the autoincrement counter; the commit fails with an
IntegrityError (`none`) when the key, the username or the email collides
with a committed row, per the table's primary-key and unique constraints.
On success the row is appended and the counter advances past the used
key. -/
def DB.insert (db : DB) (m : PendingModel) : Option (Row × DB) :=
  if db.rows.any (fun r => r.id == m.id?.getD db.nextId
      || r.username == m.username || r.email == m.email) then
    none
  else
    some (⟨m.id?.getD db.nextId, m.username, m.email, m.status⟩,
      ⟨db.rows ++ [⟨m.id?.getD db.nextId, m.username, m.email, m.status⟩],
       max db.nextId (m.id?.getD db.nextId + 1)⟩)

/-- The storage engine committing the pending inserts of one transaction in
order; any constraint violation fails the whole commit. -/
def DB.insertAll (db : DB) : List PendingModel → Option (List Row × DB)
  | [] => some ([], db)
  | m :: ms =>
      match db.insert m with
      | none => none
      | some (r, db1) =>
          match db1.insertAll ms with
          | none => none
          | some (rs, db2) => some (r :: rs, db2)

/-- The storage engine committing an UPDATE of the row keyed by `r.id`:
fails with an IntegrityError (`none`) when the new username or email
collides with a different committed row. -/
def DB.commitUpdate (db : DB) (r : Row) : Option DB :=
  if db.rows.any (fun x => !(x.id == r.id) && (x.username == r.username || x.email == r.email)) then
    none
  else
    some ⟨db.rows.map (fun x => if x.id == r.id then r else x), db.nextId⟩

/-- Embeds `SqlAlchemyUserRepository.exists_by_username`. -/
def exists_by_username (db : DB) (username : String) : Bool :=
  db.rows.any (fun r => r.username == username)

/-- Embeds `SqlAlchemyUserRepository.exists_by_email`. -/
def exists_by_email (db : DB) (email : String) : Bool :=
  db.rows.any (fun r => r.email == email)

/-- Embeds `scalar_one_or_none` over the rows a query matched: none for no
match, the row for exactly one, MultipleResultsFound otherwise. -/
def scalarOneOrNone : List Row → Except Err (Option Row)
  | [] => .ok none
  | [r] => .ok (some r)
  | _ => .error .multipleResults

/-- The list comprehension `[UserModel.from_domain(user) for user in users]`:
the first ValueError propagates. -/
def mapFromDomain : List User → Except Err (List PendingModel)
  | [] => .ok []
  | u :: us =>
      match fromDomain u with
      | .error e => .error e
      | .ok m =>
          match mapFromDomain us with
          | .error e => .error e
          | .ok ms => .ok (m :: ms)

/-- The list comprehension `[self._model_to_domain(model) for model in ...]`:
the first ValueError propagates. -/
def mapToDomain : List Row → Except Err (List User)
  | [] => .ok []
  | r :: rs =>
      match toDomain r with
      | .error e => .error e
      | .ok u =>
          match mapToDomain rs with
          | .error e => .error e
          | .ok us => .ok (u :: us)

/-- Embeds `SqlAlchemyUserRepository.create`: pre-check on username and
email raising UserAlreadyExistsError, conversion with
`UserModel.from_domain`, insert and commit with an IntegrityError at
commit rolled back and re-raised as UserAlreadyExistsError, then refresh
and conversion back with `UserModel.to_domain`. -/
def create (u : User) (db : DB) : Except Err User × DB :=
  if exists_by_username db u.user_name || exists_by_email db u.user_email then
    (.error .alreadyExists, db)
  else
    match fromDomain u with
    | .error e => (.error e, db)
    | .ok m =>
        match db.insert m with
        | none => (.error .alreadyExists, db)
        | some (r, db1) =>
            match toDomain r with
            | .ok u1 => (.ok u1, db1)
            | .error e => (.error e, db1)

/-- Embeds `SqlAlchemyUserRepository.bulk_create`: every user is converted
with `UserModel.from_domain` first (a ValueError there propagates before
anything is added), then all models are added and committed in one
transaction; an IntegrityError rolls the whole batch back and is re-raised
as UserAlreadyExistsError. -/
def bulk_create (users : List User) (db : DB) : Except Err (List User) × DB :=
  match mapFromDomain users with
  | .error e => (.error e, db)
  | .ok ms =>
      match db.insertAll ms with
      | none => (.error .alreadyExists, db)
      | some (rs, db1) =>
          match mapToDomain rs with
          | .ok us => (.ok us, db1)
          | .error e => (.error e, db1)

/-- Embeds `SqlAlchemyUserRepository.find_by_id`. -/
def find_by_id (i : Nat) (db : DB) : Except Err (Option User) :=
  match db.getById i with
  | none => .ok none
  | some r =>
      match toDomain r with
      | .ok u => .ok (some u)
      | .error e => .error e

/-- Embeds `SqlAlchemyUserRepository.find_by_username`. -/
def find_by_username (username : String) (db : DB) : Except Err (Option User) :=
  match scalarOneOrNone (db.rows.filter (fun r => r.username == username)) with
  | .error e => .error e
  | .ok none => .ok none
  | .ok (some r) =>
      match toDomain r with
      | .ok u => .ok (some u)
      | .error e => .error e

/-- Embeds `SqlAlchemyUserRepository.find_by_email`. -/
def find_by_email (email : String) (db : DB) : Except Err (Option User) :=
  match scalarOneOrNone (db.rows.filter (fun r => r.email == email)) with
  | .error e => .error e
  | .ok none => .ok none
  | .ok (some r) =>
      match toDomain r with
      | .ok u => .ok (some u)
      | .error e => .error e

/-- Embeds `SqlAlchemyUserRepository.find_all`: optional offset then
optional limit over the selected rows. -/
def find_all (limit? offset? : Option Nat) (db : DB) : Except Err (List User) :=
  let afterOffset := match offset? with
    | some n => db.rows.drop n
    | none => db.rows
  let selected := match limit? with
    | some n => afterOffset.take n
    | none => afterOffset
  mapToDomain selected

/-- Embeds `SqlAlchemyUserRepository.find_by_status`: the status argument
is normalized first, then rows are filtered by exact equality on the
stored status string, with an optional limit. -/
def find_by_status (status : StatusArg) (limit? : Option Nat) (db : DB) :
    Except Err (List User) :=
  match ensureStatus status with
  | .error e => .error e
  | .ok s =>
      let matched := db.rows.filter (fun r => r.status == s.value)
      let selected := match limit? with
        | some n => matched.take n
        | none => matched
      mapToDomain selected

/-- Embeds `SqlAlchemyUserRepository.count_total`. -/
def count_total (db : DB) : Nat :=
  db.rows.length

/-- Embeds `SqlAlchemyUserRepository.update`: a ValueError when the
identifier is absent, a ValueError naming the missing identifier when no
row matches (the NotFound kind), otherwise a full overwrite of username,
email and normalized status, committed. -/
def update (u : User) (db : DB) : Except Err User × DB :=
  match u.user_id with
  | none => (.error .missingId, db)
  | some i =>
      match db.getById i with
      | none => (.error .notFound, db)
      | some r =>
          match ensureStatus u.user_status with
          | .error e => (.error e, db)
          | .ok s =>
              match db.commitUpdate ⟨r.id, u.user_name, u.user_email, s.value⟩ with
              | none => (.error .integrityError, db)
              | some db1 =>
                  match toDomain ⟨r.id, u.user_name, u.user_email, s.value⟩ with
                  | .ok u1 => (.ok u1, db1)
                  | .error e => (.error e, db1)

/-- The keyword arguments of a partial update: the three keys the code
reads, each present or absent, plus the remaining keys of the mapping,
which the code never reads. -/
structure PartialFields where
  username : Option String := none
  email : Option String := none
  status : Option StatusArg := none
  extraKeys : List String := []
deriving DecidableEq, Repr

/-- Embeds `SqlAlchemyUserRepository.update_partial` (keyword arguments
embedded as `PartialFields`): absent identifier returns `none`; otherwise
the username and email keys, when present, overwrite the row's fields, the
status key is normalized (a ValueError there is raised before anything is
committed), and the result is committed and converted back. -/
def updatePartial (i : Nat) (f : PartialFields) (db : DB) :
    Except Err (Option User) × DB :=
  match db.getById i with
  | none => (.ok none, db)
  | some r =>
      let r1 : Row := { r with username := f.username.getD r.username }
      let r2 : Row := { r1 with email := f.email.getD r1.email }
      match f.status with
      | some sa =>
          match ensureStatus sa with
          | .error e => (.error e, db)
          | .ok s => commitBack { r2 with status := s.value } db
      | none => commitBack r2 db
where
  /-- The shared commit-and-convert tail. -/
  commitBack (r3 : Row) (db : DB) : Except Err (Option User) × DB :=
    match db.commitUpdate r3 with
    | none => (.error .integrityError, db)
    | some db1 =>
        match toDomain r3 with
        | .ok u1 => (.ok (some u1), db1)
        | .error e => (.error e, db1)

/-- Embeds `SqlAlchemyUserRepository.update_status`: absent identifier
returns `none`; otherwise the normalized status overwrites the status
column and the row is committed and converted back. -/
def update_status (i : Nat) (status : StatusArg) (db : DB) :
    Except Err (Option User) × DB :=
  match db.getById i with
  | none => (.ok none, db)
  | some r =>
      match ensureStatus status with
      | .error e => (.error e, db)
      | .ok s =>
          match db.commitUpdate ⟨r.id, r.username, r.email, s.value⟩ with
          | none => (.error .integrityError, db)
          | some db1 =>
              match toDomain ⟨r.id, r.username, r.email, s.value⟩ with
              | .ok u1 => (.ok (some u1), db1)
              | .error e => (.error e, db1)

/-- Embeds `SqlAlchemyUserRepository.delete_by_id`: false when no row
matches, otherwise the matched row is deleted and the commit returns
true. -/
def delete_by_id (i : Nat) (db : DB) : Except Err Bool × DB :=
  match db.getById i with
  | none => (.ok false, db)
  | some r => (.ok true, ⟨db.rows.eraseP (fun x => x.id == r.id), db.nextId⟩)

/-- Embeds `SqlAlchemyUserRepository.delete_by_username`: the row is
selected with `scalar_one_or_none`; false when none matches, otherwise it
is deleted and the commit returns true. -/
def delete_by_username (username : String) (db : DB) : Except Err Bool × DB :=
  match scalarOneOrNone (db.rows.filter (fun r => r.username == username)) with
  | .error e => (.error e, db)
  | .ok none => (.ok false, db)
  | .ok (some r) => (.ok true, ⟨db.rows.eraseP (fun x => x.id == r.id), db.nextId⟩)

/-- Embeds `SqlAlchemyUserRepository.soft_delete`: exactly
`update_status(user_id, UserStatus.INACTIVE)`. -/
def soft_delete (i : Nat) (db : DB) : Except Err (Option User) × DB :=
  update_status i (.enum .inactive) db

/-- Embeds `SqlAlchemyUserRepository.bulk_delete`: an empty identifier
list returns 0 without touching storage; otherwise one DELETE removes
every matching row and the count of removed rows is returned. -/
def bulk_delete (ids : List Nat) (db : DB) : Except Err Nat × DB :=
  if ids.isEmpty then (.ok 0, db)
  else
    let removed := db.rows.filter (fun r => ids.contains r.id)
    (.ok removed.length, ⟨db.rows.filter (fun r => !(ids.contains r.id)), db.nextId⟩)

/-- Embeds `SqlAlchemyUserRepository.delete_all`: removes every row and
returns the count. -/
def delete_all (db : DB) : Except Err Nat × DB :=
  (.ok db.rows.length, ⟨[], db.nextId⟩)

/-- Whether a row's stored status string parses back through the
enumeration. -/
def Row.statusOk (r : Row) : Bool :=
  (UserStatus.ofValue r.status).isSome

/-- Pairwise distinctness of primary keys, usernames and emails, as the
table's constraints guarantee for committed rows. -/
def distinctRows : List Row → Bool
  | [] => true
  | r :: rs =>
      (rs.all fun x => !(r.id == x.id) && !(r.username == x.username) && !(r.email == x.email))
        && distinctRows rs

/-- The well-formedness every committed database reachable through the
repository satisfies: the uniqueness constraints hold, every primary key
is below the autoincrement counter, and every stored status string names
an enumeration member. -/
def DB.wf (db : DB) : Bool :=
  distinctRows db.rows
    && (db.rows.all fun r => decide (r.id < db.nextId))
    && db.rows.all Row.statusOk

/-- Every stored status string names an enumeration member. -/
def statusesOk (db : DB) : Bool :=
  db.rows.all Row.statusOk

theorem ofValue_value (s : UserStatus) : UserStatus.ofValue s.value = some s := by
  cases s <;> rfl

theorem valid_iff_ensure (sa : StatusArg) :
    sa.valid = true ↔ ∃ s, ensureStatus sa = .ok s := by
  cases sa with
  | enum s => simp [StatusArg.valid, ensureStatus]
  | str v =>
      simp only [StatusArg.valid, ensureStatus]
      cases h : UserStatus.ofValue v <;> simp [h]

theorem wf_id_lt (db : DB) (h : db.wf = true) : ∀ r ∈ db.rows, r.id < db.nextId := by
  have h2 := (Bool.and_eq_true _ _ |>.mp (Bool.and_eq_true _ _ |>.mp h).1).2
  intro r hr
  exact of_decide_eq_true (List.all_eq_true.mp h2 r hr)

theorem wf_distinct (db : DB) (h : db.wf = true) : distinctRows db.rows = true :=
  (Bool.and_eq_true _ _ |>.mp (Bool.and_eq_true _ _ |>.mp h).1).1

theorem wf_statusesOk (db : DB) (h : db.wf = true) : statusesOk db = true :=
  (Bool.and_eq_true _ _ |>.mp h).2

theorem distinctRows_eq (l : List Row) (h : distinctRows l = true) :
    ∀ x ∈ l, ∀ y ∈ l,
      x.id = y.id ∨ x.username = y.username ∨ x.email = y.email → x = y := by
  induction l with
  | nil => intro x hx; exact absurd hx (List.not_mem_nil x)
  | cons r rs ih =>
      simp only [distinctRows, Bool.and_eq_true, List.all_eq_true] at h
      intro x hx y hy hkey
      rcases List.mem_cons.mp hx with hx1 | hx1 <;>
        rcases List.mem_cons.mp hy with hy1 | hy1
      · rw [hx1, hy1]
      · exfalso
        have := h.1 y hy1
        simp only [Bool.and_eq_true, Bool.not_eq_true', beq_eq_false_iff_ne] at this
        subst hx1
        rcases hkey with hk | hk | hk
        · exact this.1.1 hk
        · exact this.1.2 hk
        · exact this.2 hk
      · exfalso
        have := h.1 x hx1
        simp only [Bool.and_eq_true, Bool.not_eq_true', beq_eq_false_iff_ne] at this
        subst hy1
        rcases hkey with hk | hk | hk
        · exact this.1.1 hk.symm
        · exact this.1.2 hk.symm
        · exact this.2 hk.symm
      · exact ih h.2 x hx1 y hy1 hkey

theorem getById_mem (db : DB) (i : Nat) (r : Row) (h : db.getById i = some r) :
    r ∈ db.rows ∧ r.id = i := by
  have hm := List.mem_of_find?_eq_some h
  have hp := List.find?_some h
  exact ⟨hm, by simpa using hp⟩

/-- C9: create called with a user whose identifier is already set (and
whose username and email are free) inserts the row under the
caller-supplied identifier and returns it, rather than a
storage-generated one: on an empty store whose autoincrement counter is
1, the caller-supplied identifier 42 is kept. -/
theorem create_keeps_caller_supplied_id :
    create ⟨some 42, "johndoe", "john@x.com", .enum .active⟩ ⟨[], 1⟩
      = (.ok ⟨some 42, "johndoe", "john@x.com", .enum .active⟩,
         ⟨[⟨42, "johndoe", "john@x.com", "active"⟩], 43⟩) := by
  rfl

/-- C5: when the field set of a partial update carries a status string
naming no enumeration member, the call fails with the validation error
and nothing it supplied (username and email included) is stored: the
committed database is unchanged. -/
theorem updatePartial_invalid_status_rejected (i : Nat) (f : PartialFields)
    (db : DB) (r : Row) (sa : StatusArg)
    (hr : db.getById i = some r) (hsa : f.status = some sa)
    (hbad : sa.valid = false) :
    updatePartial i f db = (.error .validationError, db) := by
  cases sa with
  | enum s => simp [StatusArg.valid] at hbad
  | str v =>
      cases hv : UserStatus.ofValue v with
      | some s => simp [StatusArg.valid, hv] at hbad
      | none =>
          unfold updatePartial
          rw [hr, hsa]
          simp [ensureStatus, hv]

theorem updatePartial_invalid_status_rejected_witness :
    updatePartial 1 ⟨none, some "e2", some (.str "bogus"), []⟩
        ⟨[⟨1, "a", "a@x", "active"⟩], 2⟩
      = (.error .validationError, ⟨[⟨1, "a", "a@x", "active"⟩], 2⟩) :=
  updatePartial_invalid_status_rejected 1 _ _ ⟨1, "a", "a@x", "active"⟩
    (.str "bogus") (by decide) rfl (by decide)

/-- C3: update on a set identifier matching no stored row fails with the
NotFound error kind (the ValueError naming the missing identifier), and
every other missing-key case of the repository returns the absent value
(none, false, or a zero count) instead of raising. -/
theorem update_raises_notFound_alone (u : User) (i : Nat) (db : DB)
    (hid : u.user_id = some i) (hmiss : db.getById i = none) :
    update u db = (.error .notFound, db)
    ∧ (∀ j d, DB.getById d j = none → find_by_id j d = .ok none)
    ∧ (∀ j f d, DB.getById d j = none → updatePartial j f d = (.ok none, d))
    ∧ (∀ j sa d, DB.getById d j = none → update_status j sa d = (.ok none, d))
    ∧ (∀ j d, DB.getById d j = none → soft_delete j d = (.ok none, d))
    ∧ (∀ j d, DB.getById d j = none → delete_by_id j d = (.ok false, d))
    ∧ (∀ nm d, (d.rows.all fun r => !(r.username == nm)) = true →
        find_by_username nm d = .ok none ∧ delete_by_username nm d = (.ok false, d))
    ∧ (∀ em d, (d.rows.all fun r => !(r.email == em)) = true →
        find_by_email em d = .ok none)
    ∧ (∀ ids d, (d.rows.all fun r => !(ids.contains r.id)) = true →
        bulk_delete ids d = (.ok 0, d)) := by
  refine ⟨?_, ?_, ?_, ?_, ?_, ?_, ?_, ?_, ?_⟩
  · simp [update, hid, hmiss]
  · intro j d h; simp [find_by_id, h]
  · intro j f d h; simp [updatePartial, h]
  · intro j sa d h; simp [update_status, h]
  · intro j d h; simp [soft_delete, update_status, h]
  · intro j d h; simp [delete_by_id, h]
  · intro nm d h
    have hnil : d.rows.filter (fun r => r.username == nm) = [] := by
      rw [List.filter_eq_nil_iff]
      intro a ha
      have := List.all_eq_true.mp h a ha
      simpa using this
    constructor
    · simp [find_by_username, hnil, scalarOneOrNone]
    · simp [delete_by_username, hnil, scalarOneOrNone]
  · intro em d h
    have hnil : d.rows.filter (fun r => r.email == em) = [] := by
      rw [List.filter_eq_nil_iff]
      intro a ha
      have := List.all_eq_true.mp h a ha
      simpa using this
    simp [find_by_email, hnil, scalarOneOrNone]
  · intro ids d h
    by_cases he : ids.isEmpty
    · simp [bulk_delete, he]
    · have hrem : d.rows.filter (fun r => ids.contains r.id) = [] := by
        rw [List.filter_eq_nil_iff]
        intro a ha
        have := List.all_eq_true.mp h a ha
        simpa using this
      have hkeep : d.rows.filter (fun r => !(ids.contains r.id)) = d.rows := by
        rw [List.filter_eq_self]
        intro a ha
        exact List.all_eq_true.mp h a ha
      show bulk_delete ids d = (.ok 0, d)
      unfold bulk_delete
      rw [if_neg he, hrem, hkeep]
      rfl

theorem update_raises_notFound_alone_witness :
    update ⟨some 7, "a", "a@x", .enum .active⟩ ⟨[], 1⟩
      = (.error .notFound, ⟨[], 1⟩) :=
  (update_raises_notFound_alone ⟨some 7, "a", "a@x", .enum .active⟩ 7 ⟨[], 1⟩
    rfl rfl).1

/-- C1: for a user still without an identifier and with an
enumeration-typed status (the data model's form; a plain-string status
makes `UserModel.from_domain` raise AttributeError before any insert),
create raises AlreadyExists exactly when a stored row already carries
the username or the email (the pre-check; in the single-threaded
embedding the commit-time constraint can add nothing on this path), and
otherwise returns the user under the newly assigned identifier with the
row persisted. -/
theorem create_unique_then_fresh_id (u : User) (db : DB) (s : UserStatus)
    (hwf : db.wf = true) (hid : u.user_id = none)
    (hs : u.user_status = .enum s) :
    ((exists_by_username db u.user_name || exists_by_email db u.user_email) = true →
      create u db = (.error .alreadyExists, db))
    ∧ ((exists_by_username db u.user_name || exists_by_email db u.user_email) = false →
      create u db =
        (.ok ⟨some db.nextId, u.user_name, u.user_email, .enum s⟩,
         ⟨db.rows ++ [⟨db.nextId, u.user_name, u.user_email, UserStatus.value s⟩],
          db.nextId + 1⟩)) := by
  constructor
  · intro h
    simp [create, h]
  · intro h
    simp only [exists_by_username, exists_by_email, Bool.or_eq_false_iff,
      List.any_eq_false, beq_iff_eq] at h
    have hany : (db.rows.any fun r =>
        r.id == db.nextId || r.username == u.user_name || r.email == u.user_email)
        = false := by
      rw [List.any_eq_false]
      intro r hr
      simp only [Bool.or_eq_true, beq_iff_eq, not_or]
      exact ⟨⟨Nat.ne_of_lt (wf_id_lt db hwf r hr), h.1 r hr⟩, h.2 r hr⟩
    have hfd : fromDomain u = .ok ⟨none, u.user_name, u.user_email, s.value⟩ := by
      unfold fromDomain
      rw [hs, hid]
    have hins : db.insert ⟨none, u.user_name, u.user_email, s.value⟩
        = some (⟨db.nextId, u.user_name, u.user_email, s.value⟩,
                ⟨db.rows ++ [⟨db.nextId, u.user_name, u.user_email, s.value⟩],
                 db.nextId + 1⟩) := by
      unfold DB.insert
      simp only [Option.getD_none]
      rw [hany]
      simp [Nat.max_eq_right (Nat.le_succ db.nextId)]
    have htd : toDomain ⟨db.nextId, u.user_name, u.user_email, s.value⟩
        = .ok ⟨some db.nextId, u.user_name, u.user_email, .enum s⟩ := by
      unfold toDomain
      rw [ofValue_value]
    have hpre : (exists_by_username db u.user_name
        || exists_by_email db u.user_email) = false := by
      simp only [exists_by_username, exists_by_email, Bool.or_eq_false_iff,
        List.any_eq_false, beq_iff_eq]
      exact h
    simp only [create, hpre, Bool.false_eq_true, if_false, hfd, hins, htd]

theorem create_unique_then_fresh_id_witness :
    create ⟨none, "b", "b@x", .enum .pending⟩ ⟨[⟨1, "a", "a@x", "active"⟩], 2⟩ =
      (.ok ⟨some 2, "b", "b@x", .enum .pending⟩,
       ⟨[⟨1, "a", "a@x", "active"⟩, ⟨2, "b", "b@x", UserStatus.value .pending⟩], 3⟩) :=
  (create_unique_then_fresh_id ⟨none, "b", "b@x", .enum .pending⟩
    ⟨[⟨1, "a", "a@x", "active"⟩], 2⟩ .pending (by decide) rfl rfl).2 (by decide)

theorem find?_append_of_none {p : Row → Bool} (l1 l2 : List Row)
    (h : ∀ x ∈ l1, p x = false) : (l1 ++ l2).find? p = l2.find? p := by
  induction l1 with
  | nil => rfl
  | cons a l ih =>
      rw [List.cons_append, List.find?_cons, h a (List.mem_cons_self a l)]
      exact ih fun x hx => h x (List.mem_cons_of_mem a hx)

/-- C7: whenever create succeeds, find_by_id on the returned identifier
yields a present user that is the returned one, and its username, email
and (for an enumeration-typed input) status equal those of the created
user. -/
theorem create_find_by_id_roundtrip (u u1 : User) (db db1 : DB)
    (hc : create u db = (.ok u1, db1)) :
    ∃ i, u1.user_id = some i
      ∧ find_by_id i db1 = .ok (some u1)
      ∧ u1.user_name = u.user_name
      ∧ u1.user_email = u.user_email
      ∧ ∀ s, u.user_status = .enum s → u1.user_status = .enum s := by
  unfold create at hc
  split at hc
  · simp at hc
  · split at hc
    · simp at hc
    · rename_i m hfd
      split at hc
      · simp at hc
      · rename_i r db2 hins
        split at hc
        case _ u2 htd =>
          simp only [Prod.mk.injEq, Except.ok.injEq] at hc
          obtain ⟨hu, hdb⟩ := hc
          unfold fromDomain at hfd
          cases hus : u.user_status with
          | str v => rw [hus] at hfd; simp at hfd
          | enum s =>
            rw [hus] at hfd
            simp only [Except.ok.injEq] at hfd
            unfold DB.insert at hins
            split at hins
            · simp at hins
            · rename_i hany
              simp only [Option.some.injEq, Prod.mk.injEq] at hins
              obtain ⟨hr, hdb2⟩ := hins
              subst hfd
              subst hr
              subst hdb2
              subst hu
              subst hdb
              simp only [toDomain, ofValue_value, Except.ok.injEq] at htd
              subst htd
              have hany2 : (db.rows.any fun x => x.id == u.user_id.getD db.nextId
                  || x.username == u.user_name || x.email == u.user_email) = false :=
                Bool.eq_false_iff.mpr hany
              have hskip : ∀ x ∈ db.rows,
                  (x.id == u.user_id.getD db.nextId) = false := by
                intro x hx
                have h3 := List.any_eq_false.mp hany2 x hx
                simp only [Bool.or_eq_true, not_or] at h3
                exact Bool.eq_false_iff.mpr h3.1.1
              refine ⟨u.user_id.getD db.nextId, rfl, ?_, rfl, rfl, ?_⟩
              · unfold find_by_id DB.getById
                rw [find?_append_of_none _ _ hskip]
                simp [toDomain, ofValue_value]
              · intro s0 hs0
                simp only [StatusArg.enum.injEq] at hs0
                simp [hs0]
        case _ e htd => exact absurd hc (by simp)

theorem create_find_by_id_roundtrip_witness :
    ∃ i, (⟨some 1, "a", "a@x", .enum .active⟩ : User).user_id = some i
      ∧ find_by_id i ⟨[⟨1, "a", "a@x", "active"⟩], 2⟩
          = .ok (some ⟨some 1, "a", "a@x", .enum .active⟩)
      ∧ (⟨some 1, "a", "a@x", .enum .active⟩ : User).user_name = "a"
      ∧ (⟨some 1, "a", "a@x", .enum .active⟩ : User).user_email = "a@x"
      ∧ ∀ s, (StatusArg.enum .active : StatusArg) = .enum s →
          (⟨some 1, "a", "a@x", .enum .active⟩ : User).user_status = .enum s :=
  create_find_by_id_roundtrip ⟨none, "a", "a@x", .enum .active⟩
    ⟨some 1, "a", "a@x", .enum .active⟩ ⟨[], 1⟩
    ⟨[⟨1, "a", "a@x", "active"⟩], 2⟩ (by rfl)

theorem map_id_of_mem (l : List Row) (f : Row → Row) (h : ∀ x ∈ l, f x = x) :
    l.map f = l := by
  induction l with
  | nil => rfl
  | cons a t ih =>
      rw [List.map_cons, h a (List.mem_cons_self a t)]
      rw [ih fun x hx => h x (List.mem_cons_of_mem a hx)]

theorem find?_map_replace (l : List Row) (rid : Nat) (new r : Row)
    (hnew : new.id = rid)
    (hfind : l.find? (fun x => x.id == rid) = some r) :
    (l.map fun x => if x.id == rid then new else x).find?
      (fun x => x.id == rid) = some new := by
  induction l with
  | nil => simp at hfind
  | cons a t ih =>
      by_cases hcond : (a.id == rid) = true
      · rw [List.map_cons, if_pos hcond, List.find?_cons]
        have : (new.id == rid) = true := by rw [hnew]; exact beq_self_eq_true rid
        rw [this]
      · have hcond' : (a.id == rid) = false := Bool.eq_false_iff.mpr hcond
        rw [List.find?_cons, hcond'] at hfind
        rw [List.map_cons, if_neg hcond, List.find?_cons, hcond']
        exact ih hfind

theorem commitBack_spec (db : DB) (r3 : Row) (s1 : UserStatus)
    (hok : UserStatus.ofValue r3.status = some s1)
    (hany : (db.rows.any fun x =>
        !(x.id == r3.id) && (x.username == r3.username || x.email == r3.email)) = false) :
    updatePartial.commitBack r3 db =
      (.ok (some ⟨some r3.id, r3.username, r3.email, .enum s1⟩),
       ⟨db.rows.map (fun x => if x.id == r3.id then r3 else x), db.nextId⟩) := by
  unfold updatePartial.commitBack DB.commitUpdate
  rw [hany]
  simp [toDomain, hok]

/-- C10: a partial update whose field set holds none of the keys username,
email, status (only unrecognized keys) raises no error, stores nothing
new, and returns the user with its prior username, email and status. -/
theorem updatePartial_ignores_unknown_keys (i : Nat) (ks : List String)
    (db : DB) (r : Row) (hwf : db.wf = true) (hr : db.getById i = some r) :
    ∃ s, UserStatus.ofValue r.status = some s ∧
      updatePartial i ⟨none, none, none, ks⟩ db
        = (.ok (some ⟨some r.id, r.username, r.email, .enum s⟩), db) := by
  obtain ⟨hmem, hidr⟩ := getById_mem db i r hr
  have hdist := wf_distinct db hwf
  have hstat := List.all_eq_true.mp (wf_statusesOk db hwf) r hmem
  rw [Row.statusOk] at hstat
  obtain ⟨s, hs⟩ := Option.isSome_iff_exists.mp hstat
  refine ⟨s, hs, ?_⟩
  unfold updatePartial
  rw [hr]
  show updatePartial.commitBack r db = _
  have hany : (db.rows.any fun x =>
      !(x.id == r.id) && (x.username == r.username || x.email == r.email)) = false := by
    rw [List.any_eq_false]
    intro x hx
    by_cases hxid : x.id = r.id
    · simp [hxid]
    · have hxu : x.username ≠ r.username := fun hcontra =>
        hxid (congrArg Row.id (distinctRows_eq _ hdist x hx r hmem
          (Or.inr (Or.inl hcontra))))
      have hxe : x.email ≠ r.email := fun hcontra =>
        hxid (congrArg Row.id (distinctRows_eq _ hdist x hx r hmem
          (Or.inr (Or.inr hcontra))))
      simp [hxid, hxu, hxe]
  rw [commitBack_spec db r s hs hany]
  have hmap : db.rows.map (fun x => if x.id == r.id then r else x) = db.rows := by
    apply map_id_of_mem
    intro x hx
    by_cases hxid : (x.id == r.id) = true
    · rw [if_pos hxid]
      exact (distinctRows_eq _ hdist x hx r hmem (Or.inl (by simpa using hxid))).symm
    · rw [if_neg hxid]
  rw [hmap]

theorem updatePartial_ignores_unknown_keys_witness :
    ∃ s, UserStatus.ofValue "active" = some s ∧
      updatePartial 1 ⟨none, none, none, ["nickname", "age"]⟩
          ⟨[⟨1, "a", "a@x", "active"⟩], 2⟩
        = (.ok (some ⟨some 1, "a", "a@x", .enum s⟩),
           ⟨[⟨1, "a", "a@x", "active"⟩], 2⟩) :=
  updatePartial_ignores_unknown_keys 1 ["nickname", "age"]
    ⟨[⟨1, "a", "a@x", "active"⟩], 2⟩ ⟨1, "a", "a@x", "active"⟩ (by decide) rfl

/-- C4: a partial update on a stored row overwrites exactly the supplied
fields (username, email, status) and keeps every non-supplied field at its
prior stored value; the other rows are untouched and the autoincrement
counter unchanged; on an identifier matching no row it returns absent and
storage is unchanged.  `s1` is the resulting status member: the
normalization of the supplied status when one is present, the prior
stored status otherwise.  The collision hypothesis `hfree` states the
commit succeeds (no other row holds the new username or email), as the
table constraints require. -/
theorem updatePartial_overwrites_supplied_only (i : Nat) (f : PartialFields)
    (db : DB) (r : Row) (s1 : UserStatus)
    (hr : db.getById i = some r)
    (hst : match f.status with
           | some sa => ensureStatus sa = .ok s1
           | none => UserStatus.ofValue r.status = some s1)
    (hfree : ∀ x ∈ db.rows, x.id ≠ r.id →
        x.username ≠ f.username.getD r.username
          ∧ x.email ≠ f.email.getD r.email) :
    ∃ u1 db1, updatePartial i f db = (.ok (some u1), db1)
      ∧ u1 = ⟨some r.id, f.username.getD r.username, f.email.getD r.email, .enum s1⟩
      ∧ db1.getById r.id = some ⟨r.id, f.username.getD r.username,
          f.email.getD r.email,
          if f.status.isSome then s1.value else r.status⟩
      ∧ db1.nextId = db.nextId
      ∧ (∀ x ∈ db.rows, x.id ≠ r.id → x ∈ db1.rows)
      ∧ (∀ y ∈ db1.rows, y.id ≠ r.id → y ∈ db.rows)
      ∧ (∀ j d, DB.getById d j = none → updatePartial j f d = (.ok none, d)) := by
  obtain ⟨hmem, hidr⟩ := getById_mem db i r hr
  have hfind : db.rows.find? (fun x => x.id == r.id) = some r := by
    rw [hidr]; exact hr
  have main : ∀ st3 : String, UserStatus.ofValue st3 = some s1 →
      ∃ u1 db1, updatePartial.commitBack
          ⟨r.id, f.username.getD r.username, f.email.getD r.email, st3⟩ db
          = (.ok (some u1), db1)
        ∧ u1 = ⟨some r.id, f.username.getD r.username, f.email.getD r.email, .enum s1⟩
        ∧ db1.getById r.id = some ⟨r.id, f.username.getD r.username,
            f.email.getD r.email, st3⟩
        ∧ db1.nextId = db.nextId
        ∧ (∀ x ∈ db.rows, x.id ≠ r.id → x ∈ db1.rows)
        ∧ (∀ y ∈ db1.rows, y.id ≠ r.id → y ∈ db.rows) := by
    intro st3 h3s
    set r3 : Row := ⟨r.id, f.username.getD r.username, f.email.getD r.email, st3⟩
      with hr3
    have hany : (db.rows.any fun x =>
        !(x.id == r3.id) && (x.username == r3.username || x.email == r3.email))
        = false := by
      rw [List.any_eq_false]
      intro x hx
      by_cases hxid : x.id = r.id
      · simp [hr3, hxid]
      · obtain ⟨h1, h2⟩ := hfree x hx hxid
        simp [hr3, hxid, h1, h2]
    refine ⟨_, _, commitBack_spec db r3 s1 h3s hany, rfl, ?_, rfl, ?_, ?_⟩
    · unfold DB.getById
      exact find?_map_replace db.rows r.id r3 r rfl hfind
    · intro x hx hxid
      refine List.mem_map.mpr ⟨x, hx, if_neg ?_⟩
      simpa using hxid
    · intro y hy hyid
      obtain ⟨x, hx, hfx⟩ := List.mem_map.mp hy
      by_cases hxid : (x.id == r3.id) = true
      · rw [if_pos hxid] at hfx
        exact absurd (by rw [← hfx]) hyid
      · rw [if_neg hxid] at hfx
        rw [← hfx]
        exact hx
  cases hfs : f.status with
  | some sa =>
      rw [hfs] at hst
      have hst2 : ensureStatus sa = Except.ok s1 := hst
      cases hes : ensureStatus sa with
      | error e => rw [hes] at hst2; exact absurd hst2 (by simp)
      | ok s =>
          rw [hes] at hst2
          have hs1 : s = s1 := by
            simpa using hst2
          subst hs1
          have hcall : updatePartial i f db = updatePartial.commitBack
              ⟨r.id, f.username.getD r.username, f.email.getD r.email, s.value⟩ db := by
            simp only [updatePartial, hr, hfs, hes]
          obtain ⟨u1, db1, hcb, h1, h2, h3, h4, h5⟩ :=
            main s.value (ofValue_value s)
          refine ⟨u1, db1, by rw [hcall]; exact hcb, h1, ?_, h3, h4, h5, ?_⟩
          · simpa using h2
          · intro j d h
            simp [updatePartial, h]
  | none =>
      rw [hfs] at hst
      have hst2 : UserStatus.ofValue r.status = some s1 := hst
      have hcall : updatePartial i f db = updatePartial.commitBack
          ⟨r.id, f.username.getD r.username, f.email.getD r.email, r.status⟩ db := by
        simp only [updatePartial, hr, hfs]
      obtain ⟨u1, db1, hcb, h1, h2, h3, h4, h5⟩ := main r.status hst2
      refine ⟨u1, db1, by rw [hcall]; exact hcb, h1, ?_, h3, h4, h5, ?_⟩
      · simpa using h2
      · intro j d h
        simp [updatePartial, h]

theorem updatePartial_overwrites_supplied_only_witness :
    ∃ u1 db1, updatePartial 1 ⟨none, some "x", none, []⟩
        ⟨[⟨1, "johndoe", "john@x.com", "active"⟩], 2⟩ = (.ok (some u1), db1)
      ∧ u1 = ⟨some 1, "johndoe", "x", .enum .active⟩
      ∧ db1.getById 1 = some ⟨1, "johndoe", "x",
          if (none : Option StatusArg).isSome then UserStatus.value .active
          else "active"⟩
      ∧ db1.nextId = 2
      ∧ (∀ x ∈ [(⟨1, "johndoe", "john@x.com", "active"⟩ : Row)],
          x.id ≠ 1 → x ∈ db1.rows)
      ∧ (∀ y ∈ db1.rows, y.id ≠ 1 →
          y ∈ [(⟨1, "johndoe", "john@x.com", "active"⟩ : Row)])
      ∧ (∀ j d, DB.getById d j = none →
          updatePartial j ⟨none, some "x", none, []⟩ d = (.ok none, d)) :=
  updatePartial_overwrites_supplied_only 1 ⟨none, some "x", none, []⟩
    ⟨[⟨1, "johndoe", "john@x.com", "active"⟩], 2⟩
    ⟨1, "johndoe", "john@x.com", "active"⟩ .active
    rfl (by decide) (by decide)

theorem self_not_mem_eraseP (l : List Row) (hd : distinctRows l = true)
    (r : Row) (hr : r ∈ l) : r ∉ l.eraseP (fun y => y.id == r.id) := by
  induction l with
  | nil => simp
  | cons a t ih =>
      have hd2 : ((t.all fun x => !(a.id == x.id) && !(a.username == x.username)
          && !(a.email == x.email)) && distinctRows t) = true := hd
      rw [Bool.and_eq_true] at hd2
      by_cases hc : (a.id == r.id) = true
      · have heq : (a :: t).eraseP (fun y => y.id == r.id) = t :=
          List.eraseP_cons_of_pos hc
        rw [heq]
        intro hrt
        have := List.all_eq_true.mp hd2.1 r hrt
        rw [Bool.and_eq_true, Bool.and_eq_true] at this
        have hane : a.id ≠ r.id := by simpa using this.1.1
        exact hane (by simpa using hc)
      · have heq : (a :: t).eraseP (fun y => y.id == r.id)
            = a :: t.eraseP (fun y => y.id == r.id) :=
          List.eraseP_cons_of_neg (by simpa using hc)
        rw [heq]
        intro hmem
        rcases List.mem_cons.mp hmem with h1 | h1
        · exact hc (by rw [h1]; exact beq_self_eq_true a.id)
        · have hrt : r ∈ t := by
            rcases List.mem_cons.mp hr with h2 | h2
            · exact absurd (by rw [h2]; exact beq_self_eq_true a.id) hc
            · exact h2
          exact ih hd2.2 hrt h1

theorem filter_username_eq_single (l : List Row) (hd : distinctRows l = true)
    (r : Row) (hr : r ∈ l) :
    l.filter (fun x => x.username == r.username) = [r] := by
  induction l with
  | nil => simp at hr
  | cons a t ih =>
      have hd2 : ((t.all fun x => !(a.id == x.id) && !(a.username == x.username)
          && !(a.email == x.email)) && distinctRows t) = true := hd
      rw [Bool.and_eq_true] at hd2
      by_cases hc : (a.username == r.username) = true
      · have har : a = r := distinctRows_eq _ hd a (List.mem_cons_self a t) r hr
          (Or.inr (Or.inl (by simpa using hc)))
        have heq : (a :: t).filter (fun x => x.username == r.username)
            = a :: t.filter (fun x => x.username == r.username) :=
          List.filter_cons_of_pos hc
        rw [heq]
        have htnil : t.filter (fun x => x.username == r.username) = [] := by
          rw [List.filter_eq_nil_iff]
          intro x hx
          have := List.all_eq_true.mp hd2.1 x hx
          rw [Bool.and_eq_true, Bool.and_eq_true] at this
          have : a.username ≠ x.username := by simpa using this.1.2
          rw [har] at this
          simpa using fun hcontra => this (Eq.symm hcontra)
        rw [htnil, har]
      · have hrt : r ∈ t := by
          rcases List.mem_cons.mp hr with h2 | h2
          · exact absurd (by rw [h2]; exact beq_self_eq_true a.username) hc
          · exact h2
        have heq : (a :: t).filter (fun x => x.username == r.username)
            = t.filter (fun x => x.username == r.username) :=
          List.filter_cons_of_neg (by simpa using hc)
        rw [heq]
        exact ih hd2.2 hrt

/-- C6: username and email uniqueness is status-blind.  After soft_delete
the row keeps its username and email, they still trip the create
pre-check (AlreadyExists), while each hard delete (delete_by_id,
delete_by_username, bulk_delete, delete_all) removes the row and frees
both keys. -/
theorem soft_delete_keeps_uniqueness (db : DB) (i : Nat) (r : Row)
    (hwf : db.wf = true) (hr : db.getById i = some r) :
    (∃ u1 db1, soft_delete i db = (.ok (some u1), db1)
       ∧ exists_by_username db1 r.username = true
       ∧ exists_by_email db1 r.email = true
       ∧ (∀ v : User, v.user_name = r.username ∨ v.user_email = r.email →
            create v db1 = (.error .alreadyExists, db1)))
    ∧ (∃ db2, delete_by_id i db = (.ok true, db2)
       ∧ exists_by_username db2 r.username = false
       ∧ exists_by_email db2 r.email = false)
    ∧ (∃ db3, delete_by_username r.username db = (.ok true, db3)
       ∧ exists_by_username db3 r.username = false
       ∧ exists_by_email db3 r.email = false)
    ∧ (∃ n db4, bulk_delete [i] db = (.ok n, db4)
       ∧ exists_by_username db4 r.username = false
       ∧ exists_by_email db4 r.email = false)
    ∧ (∃ n db5, delete_all db = (.ok n, db5)
       ∧ exists_by_username db5 r.username = false
       ∧ exists_by_email db5 r.email = false) := by
  obtain ⟨hmem, hidr⟩ := getById_mem db i r hr
  have hdist := wf_distinct db hwf
  have herase : ∀ x ∈ db.rows.eraseP (fun y => y.id == r.id),
      x.username ≠ r.username ∧ x.email ≠ r.email := by
    intro x hx
    have hxl : x ∈ db.rows := List.mem_of_mem_eraseP hx
    have hxr : x ≠ r := fun hcontra =>
      self_not_mem_eraseP _ hdist r hmem (hcontra ▸ hx)
    exact ⟨fun hcontra => hxr (distinctRows_eq _ hdist x hxl r hmem
            (Or.inr (Or.inl hcontra))),
          fun hcontra => hxr (distinctRows_eq _ hdist x hxl r hmem
            (Or.inr (Or.inr hcontra)))⟩
  have hexeu : exists_by_username
      ⟨db.rows.eraseP (fun y => y.id == r.id), db.nextId⟩ r.username = false := by
    rw [exists_by_username, List.any_eq_false]
    intro x hx
    simpa using (herase x hx).1
  have hexee : exists_by_email
      ⟨db.rows.eraseP (fun y => y.id == r.id), db.nextId⟩ r.email = false := by
    rw [exists_by_email, List.any_eq_false]
    intro x hx
    simpa using (herase x hx).2
  refine ⟨?_, ?_, ?_, ?_, ?_⟩
  · -- soft delete: status overwrite only
    have hany : (db.rows.any fun x =>
        !(x.id == r.id) && (x.username == r.username || x.email == r.email))
        = false := by
      rw [List.any_eq_false]
      intro x hx
      by_cases hxid : x.id = r.id
      · simp [hxid]
      · have hxu : x.username ≠ r.username := fun hcontra =>
          hxid (congrArg Row.id (distinctRows_eq _ hdist x hx r hmem
            (Or.inr (Or.inl hcontra))))
        have hxe : x.email ≠ r.email := fun hcontra =>
          hxid (congrArg Row.id (distinctRows_eq _ hdist x hx r hmem
            (Or.inr (Or.inr hcontra))))
        simp [hxid, hxu, hxe]
    have hcu : db.commitUpdate ⟨r.id, r.username, r.email, "inactive"⟩
        = some ⟨db.rows.map (fun x => if x.id == r.id then
            ⟨r.id, r.username, r.email, "inactive"⟩ else x), db.nextId⟩ := by
      unfold DB.commitUpdate
      simp only []
      rw [hany]
      rfl
    have hsd : soft_delete i db
        = (.ok (some ⟨some r.id, r.username, r.email, .enum .inactive⟩),
           ⟨db.rows.map (fun x => if x.id == r.id then
              ⟨r.id, r.username, r.email, "inactive"⟩ else x), db.nextId⟩) := by
      unfold soft_delete update_status
      rw [hr]
      show (match db.commitUpdate ⟨r.id, r.username, r.email, "inactive"⟩ with
            | none => ((.error .integrityError : Except Err (Option User)), db)
            | some db1 =>
                match toDomain ⟨r.id, r.username, r.email, "inactive"⟩ with
                | .ok u1 => (.ok (some u1), db1)
                | .error e => (.error e, db1)) = _
      rw [hcu]
      rfl
    have hmemnew : (⟨r.id, r.username, r.email, "inactive"⟩ : Row)
        ∈ db.rows.map (fun x => if x.id == r.id then
            ⟨r.id, r.username, r.email, "inactive"⟩ else x) :=
      List.mem_map.mpr ⟨r, hmem, if_pos (beq_self_eq_true r.id)⟩
    have hexu : exists_by_username ⟨db.rows.map (fun x => if x.id == r.id then
        ⟨r.id, r.username, r.email, "inactive"⟩ else x), db.nextId⟩
        r.username = true := by
      rw [exists_by_username]
      exact List.any_eq_true.mpr ⟨_, hmemnew, beq_self_eq_true r.username⟩
    have hexe : exists_by_email ⟨db.rows.map (fun x => if x.id == r.id then
        ⟨r.id, r.username, r.email, "inactive"⟩ else x), db.nextId⟩
        r.email = true := by
      rw [exists_by_email]
      exact List.any_eq_true.mpr ⟨_, hmemnew, beq_self_eq_true r.email⟩
    refine ⟨_, _, hsd, hexu, hexe, ?_⟩
    intro v hv
    have hpre : (exists_by_username ⟨db.rows.map (fun x => if x.id == r.id then
          ⟨r.id, r.username, r.email, "inactive"⟩ else x), db.nextId⟩ v.user_name
        || exists_by_email ⟨db.rows.map (fun x => if x.id == r.id then
          ⟨r.id, r.username, r.email, "inactive"⟩ else x), db.nextId⟩ v.user_email)
        = true := by
      rcases hv with hv | hv
      · exact (Bool.or_eq_true _ _).mpr (Or.inl (by rw [hv]; exact hexu))
      · exact (Bool.or_eq_true _ _).mpr (Or.inr (by rw [hv]; exact hexe))
    unfold create
    rw [hpre]
    rfl
  · refine ⟨⟨db.rows.eraseP (fun y => y.id == r.id), db.nextId⟩, ?_, hexeu, hexee⟩
    simp [delete_by_id, hr]
  · refine ⟨⟨db.rows.eraseP (fun y => y.id == r.id), db.nextId⟩, ?_, hexeu, hexee⟩
    have hfilter := filter_username_eq_single db.rows hdist r hmem
    simp [delete_by_username, hfilter, scalarOneOrNone]
  · refine ⟨(db.rows.filter (fun x => [i].contains x.id)).length,
      ⟨db.rows.filter (fun x => !([i].contains x.id)), db.nextId⟩, ?_, ?_, ?_⟩
    · simp [bulk_delete]
    · rw [exists_by_username, List.any_eq_false]
      intro x hx
      obtain ⟨hxl, hxp⟩ := List.mem_filter.mp hx
      by_cases hxu : x.username = r.username
      · have hxr : x = r := distinctRows_eq _ hdist x hxl r hmem
          (Or.inr (Or.inl hxu))
        rw [hxr, hidr] at hxp
        simp at hxp
      · simpa using hxu
    · rw [exists_by_email, List.any_eq_false]
      intro x hx
      obtain ⟨hxl, hxp⟩ := List.mem_filter.mp hx
      by_cases hxe : x.email = r.email
      · have hxr : x = r := distinctRows_eq _ hdist x hxl r hmem
          (Or.inr (Or.inr hxe))
        rw [hxr, hidr] at hxp
        simp at hxp
      · simpa using hxe
  · exact ⟨db.rows.length, ⟨[], db.nextId⟩, rfl, rfl, rfl⟩

theorem soft_delete_keeps_uniqueness_witness :
    ∃ u1 db1, soft_delete 1 ⟨[⟨1, "a", "a@x", "active"⟩], 2⟩ = (.ok (some u1), db1)
      ∧ exists_by_username db1 "a" = true
      ∧ exists_by_email db1 "a@x" = true
      ∧ (∀ v : User, v.user_name = "a" ∨ v.user_email = "a@x" →
          create v db1 = (.error .alreadyExists, db1)) :=
  (soft_delete_keeps_uniqueness ⟨[⟨1, "a", "a@x", "active"⟩], 2⟩ 1
    ⟨1, "a", "a@x", "active"⟩ (by decide) rfl).1

theorem fromDomain_status (u : User) (m : PendingModel)
    (h : fromDomain u = .ok m) : (UserStatus.ofValue m.status).isSome = true := by
  unfold fromDomain at h
  split at h
  · rename_i s hus
    simp only [Except.ok.injEq] at h
    rw [← h]
    simp [ofValue_value]
  · simp at h

theorem mapFromDomain_status (us : List User) :
    ∀ ms, mapFromDomain us = .ok ms →
      ∀ m ∈ ms, (UserStatus.ofValue m.status).isSome = true := by
  induction us with
  | nil =>
      intro ms h
      simp only [mapFromDomain, Except.ok.injEq] at h
      rw [← h]
      intro m hm
      simp at hm
  | cons u us ih =>
      intro ms h
      unfold mapFromDomain at h
      split at h
      · simp at h
      · rename_i m0 hfd
        split at h
        · simp at h
        · rename_i ms0 hms
          simp only [Except.ok.injEq] at h
          rw [← h]
          intro m hm
          rcases List.mem_cons.mp hm with h1 | h1
          · rw [h1]; exact fromDomain_status u m0 hfd
          · exact ih ms0 hms m h1

theorem insert_statusesOk (db : DB) (m : PendingModel) (r : Row) (db1 : DB)
    (h : db.insert m = some (r, db1))
    (hok : (UserStatus.ofValue m.status).isSome = true)
    (hall : statusesOk db = true) :
    statusesOk db1 = true := by
  unfold DB.insert at h
  split at h
  · simp at h
  · simp only [Option.some.injEq, Prod.mk.injEq] at h
    rw [← h.2]
    rw [statusesOk, List.all_eq_true]
    intro x hx
    rcases List.mem_append.mp hx with h1 | h1
    · exact List.all_eq_true.mp hall x h1
    · rw [List.mem_singleton.mp h1]
      exact hok

theorem insertAll_statusesOk (ms : List PendingModel) :
    ∀ db : DB, (∀ m ∈ ms, (UserStatus.ofValue m.status).isSome = true) →
      statusesOk db = true →
      ∀ rs db1, db.insertAll ms = some (rs, db1) → statusesOk db1 = true := by
  induction ms with
  | nil =>
      intro db _ hall rs db1 h
      simp only [DB.insertAll, Option.some.injEq, Prod.mk.injEq] at h
      rw [← h.2]
      exact hall
  | cons m ms ih =>
      intro db hms hall rs db1 h
      unfold DB.insertAll at h
      split at h
      · simp at h
      · rename_i r0 dbm hins
        split at h
        · simp at h
        · rename_i rs0 db2 htail
          simp only [Option.some.injEq, Prod.mk.injEq] at h
          rw [← h.2]
          have hdbm : statusesOk dbm = true :=
            insert_statusesOk db m r0 dbm hins
              (hms m (List.mem_cons_self m ms)) hall
          exact ih dbm (fun x hx => hms x (List.mem_cons_of_mem m hx)) hdbm
            rs0 db2 htail

theorem commitUpdate_statusesOk (db : DB) (r : Row) (db1 : DB)
    (h : db.commitUpdate r = some db1) (hok : Row.statusOk r = true)
    (hall : statusesOk db = true) : statusesOk db1 = true := by
  unfold DB.commitUpdate at h
  split at h
  · simp at h
  · simp only [Option.some.injEq] at h
    rw [← h]
    rw [statusesOk, List.all_eq_true]
    intro x hx
    obtain ⟨y, hy, hfy⟩ := List.mem_map.mp hx
    by_cases hc : (y.id == r.id) = true
    · rw [if_pos hc] at hfy
      rw [← hfy]
      exact hok
    · rw [if_neg hc] at hfy
      rw [← hfy]
      exact List.all_eq_true.mp hall y hy

theorem statusOk_of_value (i : Nat) (a b : String) (s : UserStatus) :
    Row.statusOk ⟨i, a, b, s.value⟩ = true := by
  rw [Row.statusOk, ofValue_value]
  rfl

theorem sub_statusesOk (rows1 : List Row) (db : DB) (n : Nat)
    (hsub : ∀ x ∈ rows1, x ∈ db.rows) (hall : statusesOk db = true) :
    statusesOk ⟨rows1, n⟩ = true := by
  rw [statusesOk, List.all_eq_true]
  intro x hx
  exact List.all_eq_true.mp hall x (hsub x hx)

theorem commitBack_statusesOk (r3 : Row) (db : DB)
    (hok : Row.statusOk r3 = true) (hall : statusesOk db = true) :
    statusesOk (updatePartial.commitBack r3 db).2 = true := by
  unfold updatePartial.commitBack
  split
  · exact hall
  · rename_i db1 hcu
    split
    · exact commitUpdate_statusesOk db r3 db1 hcu hok hall
    · exact commitUpdate_statusesOk db r3 db1 hcu hok hall

/-- C8: the stored-status validity invariant.  Conversion of a stored row
never fails on status parsing when the invariant holds, and every
mutating repository operation preserves the invariant: create and
bulk_create write statuses normalized by the model conversion, update,
update_partial and update_status (hence soft_delete) write statuses
normalized through the enumeration, and the deletes only remove rows. -/
theorem stored_statuses_always_valid :
    (∀ db : DB, statusesOk db = true → ∀ r ∈ db.rows, ∃ u1, toDomain r = .ok u1)
    ∧ (∀ u db, statusesOk db = true → statusesOk (create u db).2 = true)
    ∧ (∀ us db, statusesOk db = true → statusesOk (bulk_create us db).2 = true)
    ∧ (∀ u db, statusesOk db = true → statusesOk (update u db).2 = true)
    ∧ (∀ i f db, statusesOk db = true → statusesOk (updatePartial i f db).2 = true)
    ∧ (∀ i sa db, statusesOk db = true → statusesOk (update_status i sa db).2 = true)
    ∧ (∀ i db, statusesOk db = true → statusesOk (soft_delete i db).2 = true)
    ∧ (∀ i db, statusesOk db = true → statusesOk (delete_by_id i db).2 = true)
    ∧ (∀ nm db, statusesOk db = true → statusesOk (delete_by_username nm db).2 = true)
    ∧ (∀ ids db, statusesOk db = true → statusesOk (bulk_delete ids db).2 = true)
    ∧ (∀ db, statusesOk db = true → statusesOk (delete_all db).2 = true) := by
  refine ⟨?_, ?_, ?_, ?_, ?_, ?_, ?_, ?_, ?_, ?_, ?_⟩
  · intro db hall r hr
    have := List.all_eq_true.mp hall r hr
    rw [Row.statusOk] at this
    obtain ⟨s, hs⟩ := Option.isSome_iff_exists.mp this
    exact ⟨_, by rw [toDomain, hs]⟩
  · intro u db hall
    unfold create
    split
    · exact hall
    · split
      · exact hall
      · rename_i m hfd
        split
        · exact hall
        · rename_i r db1 hins
          have hok := insert_statusesOk db m r db1 hins
            (fromDomain_status u m hfd) hall
          split
          · exact hok
          · exact hok
  · intro us db hall
    unfold bulk_create
    split
    · exact hall
    · rename_i ms hms
      split
      · exact hall
      · rename_i rs db1 hia
        have hok := insertAll_statusesOk ms db
          (mapFromDomain_status us ms hms) hall rs db1 hia
        split
        · exact hok
        · exact hok
  · intro u db hall
    unfold update
    split
    · exact hall
    · split
      · exact hall
      · rename_i i r hg
        split
        · exact hall
        · rename_i s hse
          split
          · exact hall
          · rename_i db1 hcu
            have hok := commitUpdate_statusesOk db
              ⟨r.id, u.user_name, u.user_email, s.value⟩ db1 hcu
              (statusOk_of_value r.id u.user_name u.user_email s) hall
            split
            · exact hok
            · exact hok
  · intro i f db hall
    unfold updatePartial
    split
    · exact hall
    · rename_i r hg
      split
      · rename_i sa hsa
        split
        · exact hall
        · rename_i s hse
          exact commitBack_statusesOk _ db
            (statusOk_of_value r.id _ _ s) hall
      · have hmem := (getById_mem db i r hg).1
        have hok : Row.statusOk
            ⟨r.id, f.username.getD r.username, f.email.getD r.email, r.status⟩
            = true := List.all_eq_true.mp hall r hmem
        exact commitBack_statusesOk _ db hok hall
  · intro i sa db hall
    unfold update_status
    split
    · exact hall
    · rename_i r hg
      split
      · exact hall
      · rename_i s hse
        split
        · exact hall
        · rename_i db1 hcu
          have hok := commitUpdate_statusesOk db ⟨r.id, r.username, r.email, s.value⟩
            db1 hcu (statusOk_of_value r.id r.username r.email s) hall
          split
          · exact hok
          · exact hok
  · intro i db hall
    unfold soft_delete update_status
    split
    · exact hall
    · rename_i r hg
      split
      · exact hall
      · rename_i s hse
        split
        · exact hall
        · rename_i db1 hcu
          have hok := commitUpdate_statusesOk db ⟨r.id, r.username, r.email, s.value⟩
            db1 hcu (statusOk_of_value r.id r.username r.email s) hall
          split
          · exact hok
          · exact hok
  · intro i db hall
    unfold delete_by_id
    split
    · exact hall
    · rename_i r hg
      exact sub_statusesOk _ db _ (fun x hx => List.mem_of_mem_eraseP hx) hall
  · intro nm db hall
    unfold delete_by_username
    split
    · exact hall
    · exact hall
    · rename_i r hs
      exact sub_statusesOk _ db _ (fun x hx => List.mem_of_mem_eraseP hx) hall
  · intro ids db hall
    unfold bulk_delete
    split
    · exact hall
    · exact sub_statusesOk _ db _ (fun x hx => (List.mem_filter.mp hx).1) hall
  · intro db hall
    rfl

theorem stored_statuses_always_valid_witness :
    statusesOk (create ⟨none, "b", "b@x", .enum .pending⟩
      ⟨[⟨1, "a", "a@x", "active"⟩], 2⟩).2 = true :=
  stored_statuses_always_valid.2.1 ⟨none, "b", "b@x", .enum .pending⟩
    ⟨[⟨1, "a", "a@x", "active"⟩], 2⟩ (by decide)

/-- Claim C2's collision condition against the stored rows: a stored row
already carries the user's username or email. -/
def collidesStored (db : DB) (u : User) : Bool :=
  exists_by_username db u.user_name || exists_by_email db u.user_email

/-- Claim C2's collision condition inside a batch: two users share a
username or an email. -/
def collides (a b : User) : Bool :=
  a.user_name == b.user_name || a.user_email == b.user_email

/-- Claim C2's batch uniqueness violation: some user of the batch
collides with a stored row, or two users of the batch collide with each
other. -/
def batchViolation (db : DB) : List User → Bool
  | [] => false
  | u :: us => collidesStored db u || us.any (collides u) || batchViolation db us

theorem batchViolation_append (db : DB) (r0 : Row) (n : Nat) (u : User)
    (hr0u : r0.username = u.user_name) (hr0e : r0.email = u.user_email) :
    ∀ us, batchViolation ⟨db.rows ++ [r0], n⟩ us
      = (us.any (collides u) || batchViolation db us) := by
  intro us
  induction us with
  | nil => rfl
  | cons v vs ih =>
      have hcs : collidesStored ⟨db.rows ++ [r0], n⟩ v
          = (collidesStored db v || collides u v) := by
        rw [collidesStored, collidesStored, collides, exists_by_username,
          exists_by_username, exists_by_email, exists_by_email]
        simp only [List.any_append, List.any_cons, List.any_nil, Bool.or_false,
          hr0u, hr0e]
        cases hb1 : db.rows.any fun r => r.username == v.user_name <;>
          cases hb2 : db.rows.any fun r => r.email == v.user_email <;>
          cases hb3 : u.user_name == v.user_name <;>
          cases hb4 : u.user_email == v.user_email <;> rfl
      show (collidesStored ⟨db.rows ++ [r0], n⟩ v || vs.any (collides v)
          || batchViolation ⟨db.rows ++ [r0], n⟩ vs) = _
      rw [hcs, ih]
      show _ = ((collides u v || vs.any (collides u))
          || (collidesStored db v || vs.any (collides v) || batchViolation db vs))
      cases collidesStored db v <;> cases collides u v <;>
        cases vs.any (collides v) <;> cases vs.any (collides u) <;>
        cases batchViolation db vs <;> rfl

theorem mapToDomain_ok (rs : List Row)
    (h : ∀ x ∈ rs, (UserStatus.ofValue x.status).isSome = true) :
    ∃ us1, mapToDomain rs = .ok us1 ∧ us1.length = rs.length
      ∧ ∀ u1 ∈ us1, u1.user_id.isSome = true := by
  induction rs with
  | nil => exact ⟨[], rfl, rfl, by intro u1 h1; simp at h1⟩
  | cons x xs ih =>
      obtain ⟨s, hs⟩ := Option.isSome_iff_exists.mp (h x (List.mem_cons_self x xs))
      obtain ⟨us0, hm0, hl0, hi0⟩ := ih fun y hy => h y (List.mem_cons_of_mem x hy)
      refine ⟨⟨some x.id, x.username, x.email, .enum s⟩ :: us0, ?_, ?_, ?_⟩
      · unfold mapToDomain
        rw [show toDomain x = .ok ⟨some x.id, x.username, x.email, .enum s⟩ from
          by rw [toDomain, hs], hm0]
      · simp [hl0]
      · intro u1 h1
        rcases List.mem_cons.mp h1 with h2 | h2
        · rw [h2]; rfl
        · exact hi0 u1 h2

theorem forall2_mem_left {R : User → Row → Prop} :
    ∀ {l1 : List User} {l2 : List Row}, List.Forall₂ R l1 l2 →
      ∀ a ∈ l1, ∃ b ∈ l2, R a b := by
  intro l1 l2 h
  induction h with
  | nil => intro a ha; simp at ha
  | cons hab _ ih =>
      intro a ha
      rcases List.mem_cons.mp ha with h1 | h1
      · exact ⟨_, List.mem_cons_self _ _, h1 ▸ hab⟩
      · obtain ⟨b, hb, hr⟩ := ih a h1
        exact ⟨b, List.mem_cons_of_mem _ hb, hr⟩

theorem bulk_core (users : List User) :
    ∀ db : DB, (∀ r ∈ db.rows, r.id < db.nextId) →
    (∀ u ∈ users, u.user_id = none) →
    (∀ u ∈ users, ∃ s, u.user_status = StatusArg.enum s) →
    ∃ ms, mapFromDomain users = .ok ms ∧
      (batchViolation db users = true → db.insertAll ms = none)
      ∧ (batchViolation db users = false →
          ∃ rs db1, db.insertAll ms = some (rs, db1)
            ∧ rs.length = users.length
            ∧ db1.rows = db.rows ++ rs
            ∧ (∀ r ∈ db1.rows, r.id < db1.nextId)
            ∧ (∀ x ∈ rs, (UserStatus.ofValue x.status).isSome = true)
            ∧ List.Forall₂ (fun u x => x.username = u.user_name
                ∧ x.email = u.user_email) users rs) := by
  induction users with
  | nil =>
      intro db hbound _ _
      refine ⟨[], rfl, by intro h; simp [batchViolation] at h, ?_⟩
      intro _
      exact ⟨[], db, rfl, rfl, (List.append_nil db.rows).symm, hbound,
        by intro x hx; simp at hx, List.Forall₂.nil⟩
  | cons u us ih =>
      intro db hbound hid hs
      obtain ⟨s, hse⟩ := hs u (List.mem_cons_self u us)
      have hfd : fromDomain u = .ok ⟨none, u.user_name, u.user_email, s.value⟩ := by
        unfold fromDomain
        rw [hse, hid u (List.mem_cons_self u us)]
      by_cases hc : collidesStored db u = true
      · -- the head already collides with a stored row: the insert fails
        obtain ⟨ms0, hms0, _, _⟩ := ih db hbound
          (fun v hv => hid v (List.mem_cons_of_mem u hv))
          (fun v hv => hs v (List.mem_cons_of_mem u hv))
        have hcond : (db.rows.any fun x => x.id == db.nextId
            || x.username == u.user_name || x.email == u.user_email) = true := by
          rw [collidesStored, Bool.or_eq_true] at hc
          rcases hc with hc | hc
          · obtain ⟨x, hx, hp⟩ := List.any_eq_true.mp hc
            refine List.any_eq_true.mpr ⟨x, hx, ?_⟩
            simp only [Bool.or_eq_true]
            exact Or.inl (Or.inr hp)
          · obtain ⟨x, hx, hp⟩ := List.any_eq_true.mp hc
            refine List.any_eq_true.mpr ⟨x, hx, ?_⟩
            simp only [Bool.or_eq_true]
            exact Or.inr hp
        have hins : db.insert ⟨none, u.user_name, u.user_email, s.value⟩ = none := by
          simp only [DB.insert, Option.getD_none]
          rw [hcond]
          rfl
        refine ⟨⟨none, u.user_name, u.user_email, s.value⟩ :: ms0, ?_, ?_, ?_⟩
        · unfold mapFromDomain
          rw [hfd, hms0]
        · intro _
          unfold DB.insertAll
          rw [hins]
        · intro hv
          exfalso
          have : batchViolation db (u :: us) = true := by
            show (collidesStored db u || us.any (collides u)
              || batchViolation db us) = true
            rw [hc]
            rfl
          rw [this] at hv
          exact Bool.true_eq_false.mp hv
      · -- the head is free against the stored rows: the insert commits
        have hcf : collidesStored db u = false := Bool.eq_false_iff.mpr hc
        rw [collidesStored, Bool.or_eq_false_iff] at hcf
        have hany : (db.rows.any fun x => x.id == db.nextId
            || x.username == u.user_name || x.email == u.user_email) = false := by
          rw [List.any_eq_false]
          intro x hx
          simp only [Bool.or_eq_true, beq_iff_eq, not_or]
          refine ⟨⟨Nat.ne_of_lt (hbound x hx), ?_⟩, ?_⟩
          · have := List.any_eq_false.mp hcf.1 x hx
            simpa using this
          · have := List.any_eq_false.mp hcf.2 x hx
            simpa using this
        have hins : db.insert ⟨none, u.user_name, u.user_email, s.value⟩
            = some (⟨db.nextId, u.user_name, u.user_email, s.value⟩,
                ⟨db.rows ++ [⟨db.nextId, u.user_name, u.user_email, s.value⟩],
                 db.nextId + 1⟩) := by
          unfold DB.insert
          simp only [Option.getD_none]
          rw [hany]
          simp [Nat.max_eq_right (Nat.le_succ db.nextId)]
        have hbound1 : ∀ r ∈ (⟨db.rows
            ++ [⟨db.nextId, u.user_name, u.user_email, s.value⟩],
            db.nextId + 1⟩ : DB).rows, r.id < db.nextId + 1 := by
          intro x hx
          rcases List.mem_append.mp hx with h1 | h1
          · exact Nat.lt_succ_of_lt (hbound x h1)
          · rw [List.mem_singleton.mp h1]
            exact Nat.lt_succ_self db.nextId
        obtain ⟨ms0, hms0, hno0, hyes0⟩ := ih
          ⟨db.rows ++ [⟨db.nextId, u.user_name, u.user_email, s.value⟩],
            db.nextId + 1⟩ hbound1
          (fun v hv => hid v (List.mem_cons_of_mem u hv))
          (fun v hv => hs v (List.mem_cons_of_mem u hv))
        have hbv := batchViolation_append db
          ⟨db.nextId, u.user_name, u.user_email, s.value⟩ (db.nextId + 1) u rfl rfl us
        have hstep : ∀ ms0 : List PendingModel,
            db.insertAll (⟨none, u.user_name, u.user_email, s.value⟩ :: ms0)
              = (match (⟨db.rows ++ [⟨db.nextId, u.user_name, u.user_email, s.value⟩],
                    db.nextId + 1⟩ : DB).insertAll ms0 with
                 | none => none
                 | some (rs, db2) =>
                     some (⟨db.nextId, u.user_name, u.user_email, s.value⟩ :: rs, db2)) := by
          intro ms0
          conv_lhs => unfold DB.insertAll
          rw [hins]
        refine ⟨⟨none, u.user_name, u.user_email, s.value⟩ :: ms0, ?_, ?_, ?_⟩
        · unfold mapFromDomain
          rw [hfd, hms0]
        · intro hv
          have hv1 : (collidesStored db u || us.any (collides u)
              || batchViolation db us) = true := hv
          simp only [collidesStored, hcf.1, hcf.2, Bool.false_or] at hv1
          rw [hstep ms0, hno0 (hbv.trans hv1)]
        · intro hv
          have hv1 : (collidesStored db u || us.any (collides u)
              || batchViolation db us) = false := hv
          simp only [collidesStored, hcf.1, hcf.2, Bool.false_or] at hv1
          obtain ⟨rs0, db1, hia0, hlen0, hrows0, hbound0, hst0, hfa0⟩ :=
            hyes0 (hbv.trans hv1)
          refine ⟨⟨db.nextId, u.user_name, u.user_email, s.value⟩ :: rs0, db1,
            ?_, ?_, ?_, hbound0, ?_, ?_⟩
          · rw [hstep ms0, hia0]
          · simp [hlen0]
          · rw [hrows0]
            simp
          · intro x hx
            rcases List.mem_cons.mp hx with h1 | h1
            · rw [h1]
              simp [ofValue_value]
            · exact hst0 x h1
          · exact List.Forall₂.cons ⟨rfl, rfl⟩ hfa0

/-- C2: bulk_create is all-or-nothing.  For a batch of not-yet-persisted
users with enumeration-typed statuses (the data model's form; a
plain-string status makes `UserModel.from_domain` raise AttributeError in
the comprehension, before anything is added): when some user of the batch
collides on username or email with a stored row or with another user of
the batch, bulk_create raises AlreadyExists and the committed store is
unchanged (no partial commit); when no violation exists, every user of
the batch is persisted with a generated identifier. -/
theorem bulk_create_all_or_nothing (users : List User) (db : DB)
    (hwf : db.wf = true)
    (hid : ∀ u ∈ users, u.user_id = none)
    (hs : ∀ u ∈ users, ∃ s, u.user_status = StatusArg.enum s) :
    (batchViolation db users = true →
       bulk_create users db = (.error .alreadyExists, db))
    ∧ (batchViolation db users = false →
       ∃ us1 db1, bulk_create users db = (.ok us1, db1)
         ∧ us1.length = users.length
         ∧ (∀ u1 ∈ us1, u1.user_id.isSome = true)
         ∧ db1.rows.length = db.rows.length + users.length
         ∧ ∀ u ∈ users, ∃ x ∈ db1.rows,
             x.username = u.user_name ∧ x.email = u.user_email) := by
  obtain ⟨ms, hms, hno, hyes⟩ := bulk_core users db (wf_id_lt db hwf) hid hs
  constructor
  · intro hv
    have hia := hno hv
    simp only [bulk_create, hms, hia]
  · intro hv
    obtain ⟨rs, db1, hia, hlen, hrows, hbound1, hst, hfa⟩ := hyes hv
    obtain ⟨us1, hmtd, hlen2, hids⟩ := mapToDomain_ok rs hst
    refine ⟨us1, db1, ?_, by rw [hlen2, hlen], hids, ?_, ?_⟩
    · simp only [bulk_create, hms, hia, hmtd]
    · rw [hrows, List.length_append, hlen]
    · intro u hu
      obtain ⟨x, hx, hr⟩ := forall2_mem_left hfa u hu
      exact ⟨x, by rw [hrows]; exact List.mem_append_right _ hx, hr⟩

theorem bulk_create_all_or_nothing_witness :
    ∃ us1 db1, bulk_create
        [⟨none, "b", "b@x", .enum .active⟩, ⟨none, "c", "c@x", .enum .pending⟩]
        ⟨[⟨1, "a", "a@x", "active"⟩], 2⟩ = (.ok us1, db1)
      ∧ us1.length = 2
      ∧ (∀ u1 ∈ us1, u1.user_id.isSome = true)
      ∧ db1.rows.length = 1 + 2
      ∧ ∀ u ∈ [(⟨none, "b", "b@x", .enum .active⟩ : User),
          ⟨none, "c", "c@x", .enum .pending⟩],
          ∃ x ∈ db1.rows, x.username = u.user_name ∧ x.email = u.user_email :=
  (bulk_create_all_or_nothing
    [⟨none, "b", "b@x", .enum .active⟩, ⟨none, "c", "c@x", .enum .pending⟩]
    ⟨[⟨1, "a", "a@x", "active"⟩], 2⟩ (by decide) (by decide)
    (by
      intro u hu
      rcases List.mem_cons.mp hu with h | h
      · exact ⟨UserStatus.active, by rw [h]⟩
      · rcases List.mem_cons.mp h with h2 | h2
        · exact ⟨UserStatus.pending, by rw [h2]⟩
        · exact absurd h2 (List.not_mem_nil u))).2
    (by decide)

end Pluto
